import Mathlib

/-!
Verification of the load-combination generator (`main.py`).

The Python program builds trees of `LoadItem` nodes (bigtree `Node` subclass),
clones them per load combination under a `LoadCombinationSet` root, assigns
load factors, prunes factor-free branches (`clean_tree`), recursively expands
exclusive (`additive=False`) branch points (`expand_nonadditive_nodes`), and
flattens terminal trees (`to_dict`).

Shallow embedding conventions:
* A `LoadItem` node is `LItem.node name additive load_factor children`;
  `additive : Option Bool` models the optional `additive` attribute
  (`none` = attribute absent) and `load_factor : Option Factor` models the
  optional `load_factor` attribute.
* A `LoadCombinationSet` root is the structure `LoadCombinationSet` with its
  `name`, the optional `expanded` marker (modelled as a `Bool`, `false` =
  attribute absent) and its list of `LItem` children.
* Methods that walk the parent chain (`get_load_factor`, `self.root`) take the
  chain of `LoadItem` ancestors explicitly (immediate parent first) together
  with a `RootKind` describing what sits above the outermost `LoadItem`
  (`itemRoot`: the topmost ancestor is itself a `LoadItem` or the node is
  detached, as in the template tree; `comboRoot`: the chain hangs below a
  `LoadCombinationSet`).
* Python exceptions are modelled with `Except String`.
* Python dicts (insertion ordered, assignment overwrites by key) are modelled
  as association lists with an upsert operation.
-/

/-- Numeric load factors.  The program never computes with them (they are read
from YAML and copied around), so any decidable numeric type is adequate; we use
`Rat`. -/
abbrev Factor := Rat

/-- A bigtree node as built by `LoadItem.__init__` / `append`: a name, the
optional `additive` attribute, the optional `load_factor` attribute and the
ordered list of children. -/
inductive LItem : Type where
  | node (name : String) (additive : Option Bool) (load_factor : Option Factor)
      (children : List LItem)

/-- `node.name` (here `node` stands for a tree node, as in bigtree). -/
def LItem.name : LItem → String
  | .node n _ _ _ => n

/-- `node.get_attr("additive")`. -/
def LItem.additive : LItem → Option Bool
  | .node _ a _ _ => a

/-- `node.get_attr("load_factor")`. -/
def LItem.load_factor : LItem → Option Factor
  | .node _ _ f _ => f

/-- `node.children`. -/
def LItem.children : LItem → List LItem
  | .node _ _ _ cs => cs

/-- `node.set_attrs({"load_factor": f})`: same node with the factor attribute
replaced. -/
def LItem.withFactor (f : Factor) : LItem → LItem
  | .node n a _ cs => .node n a (some f) cs

/-- Replace the children list of a node (used by structural tree surgery). -/
def LItem.withChildren (cs : List LItem) : LItem → LItem
  | .node n a f _ => .node n a f cs

/-- `LoadItem.__init__(name, additive)`: a fresh node has no children and, in
particular, no `load_factor` attribute. -/
def LItem.init (name : String) (additive : Option Bool) : LItem :=
  .node name additive none []

/-- What lies above the outermost `LoadItem` ancestor of a node: either
nothing / another `LoadItem` (the template tree, whose root `"Root"` is a
`LoadItem` with `parent = None`), or a `LoadCombinationSet` root. -/
inductive RootKind : Type where
  | itemRoot
  | comboRoot
deriving DecidableEq

/-- `LoadItem.check_root_is_combination_set` (main.py lines 85-95):
`isinstance(self.root, LoadCombinationSet)`.  In the embedding the runtime
type of the ultimate root is exactly the `RootKind` of the node's context. -/
def LItem.check_root_is_combination_set (_self : LItem) (rootKind : RootKind) : Bool :=
  rootKind = RootKind.comboRoot

/-- `LoadItem.set_load_factor` (main.py lines 49-63): record the factor if the
ultimate root is a `LoadCombinationSet`, otherwise raise `ValueError`. -/
def LItem.set_load_factor (self : LItem) (rootKind : RootKind) (f : Factor) :
    Except String LItem :=
  if self.check_root_is_combination_set rootKind then
    Except.ok (self.withFactor f)
  else
    Except.error "Cannot set load factor if not part of LoadCombinationSet"

/-- `LoadItem.get_load_factor` (main.py lines 65-83): the node's own factor if
the attribute is set, else the parent's resolved factor when the parent exists
and is a `LoadItem` (the `ancestors` list is exactly the chain of `LoadItem`
ancestors, immediate parent first; the chain ends where the Python recursion
stops), else `None`. -/
def LItem.get_load_factor (self : LItem) (ancestors : List LItem) : Option Factor :=
  match self.load_factor with
  | some f => some f
  | none =>
    match ancestors with
    | p :: rest => p.get_load_factor rest
    | [] => none

/-- `LoadItem.check_chid_load_factors` (main.py lines 97-108): whether some
direct child resolves a factor via `get_load_factor`.  Every child of a
`LoadItem` in this program is a `LoadItem`, so the `isinstance` test in the
loop is always true. -/
def LItem.check_chid_load_factors (self : LItem) (ancestors : List LItem) : Bool :=
  self.children.any (fun child => (child.get_load_factor (self :: ancestors)).isSome)

/-- A `LoadCombinationSet` root node: name, optional `expanded` attribute
(`false` = absent) and children.  It carries no `additive` and no
`load_factor` attribute. -/
structure LoadCombinationSet : Type where
  name : String
  expanded : Bool
  children : List LItem

/-- The condition under which `clean_tree` (main.py lines 226-232) removes a
node: no direct child resolves a factor and the node itself resolves none.
`keepPred` is its negation: the node is kept at its visit. -/
def keepPred (c : LItem) (ancestors : List LItem) : Bool :=
  c.check_chid_load_factors ancestors || (c.get_load_factor ancestors).isSome

mutual
/-- Clean the subtree below a kept node: the node keeps its attributes and its
children are cleaned with the (original) node pushed on the ancestor chain.
Attributes of ancestors are never modified by `clean_tree`, so pushing the
original node is faithful. -/
def cleanItem (ancestors : List LItem) : LItem → LItem
  | .node n a f cs => .node n a f (cleanForest (LItem.node n a f cs :: ancestors) cs)

/-- `LoadCombinationSet.clean_tree` (main.py lines 213-232), restricted to a
children list.  The Python code iterates `preorder_iter` over the mutating
tree and calls `shift_nodes(..., [None], delete_children=True)` on every
`LoadItem` for which the removal condition holds; deleting a node detaches its
whole subtree and (because of `delete_children=True`) severs its children, so
the generator never descends into a removed subtree.  A node is therefore
visited exactly when all its ancestors were kept, and at its visit its own
subtree and the attributes of its ancestors are still the original ones.  That
imperative pass is this top-down filter. -/
def cleanForest (ancestors : List LItem) : List LItem → List LItem
  | [] => []
  | c :: rest =>
    if keepPred c ancestors then
      cleanItem ancestors c :: cleanForest ancestors rest
    else
      cleanForest ancestors rest
end

/-- `LoadCombinationSet.clean_tree` on the whole tree: the root is a
`LoadCombinationSet`, not a `LoadItem`, so the preorder visit of the root
evaluates no removal condition; only the `LoadItem` children (whose `LoadItem`
ancestor chain is empty) are filtered. -/
def LoadCombinationSet.clean_tree (t : LoadCombinationSet) : LoadCombinationSet :=
  { t with children := cleanForest [] t.children }

mutual
/-- All `load_factor` attributes in a subtree are absent. -/
def LItem.noFactors : LItem → Bool
  | .node _ _ f cs => f.isNone && noFactorsL cs

/-- All `load_factor` attributes in a forest are absent. -/
def noFactorsL : List LItem → Bool
  | [] => true
  | c :: rest => c.noFactors && noFactorsL rest
end

/-- `find_attrs(tree, "additive", False)` matches a node iff its `additive`
attribute is present and equals `False`. -/
def isExclusive (c : LItem) : Bool :=
  c.additive = some false

/-- An exclusive node with more than one child (a branch point that
`expand_nonadditive_nodes` actually expands). -/
def isMultiExclusive (c : LItem) : Bool :=
  isExclusive c && decide (c.children.length > 1)

mutual
/-- Number of nodes of a subtree satisfying `p`. -/
def countP (p : LItem → Bool) : LItem → Nat
  | .node n a f cs => (if p (.node n a f cs) then 1 else 0) + countPL p cs

/-- Number of nodes of a forest satisfying `p`. -/
def countPL (p : LItem → Bool) : List LItem → Nat
  | [] => 0
  | c :: rest => countP p c + countPL p rest
end

mutual
/-- Product, over every exclusive node of a subtree with more than one child,
of that node's child count (empty product 1); the count the Cartesian-count
law of the spec predicts for `expand_nonadditive_nodes`. -/
def branchProduct : LItem → Nat
  | .node _ a _ cs =>
    (if a = some false ∧ cs.length > 1 then cs.length else 1) * branchProductL cs

/-- `branchProduct` over a forest. -/
def branchProductL : List LItem → Nat
  | [] => 1
  | c :: rest => branchProduct c * branchProductL rest
end

/-- Result of scanning one subtree for the first (preorder) node carrying
`additive == False`, as `find_attrs` does, combined with what
`expand_nonadditive_nodes` does at that node. -/
inductive ScanI : Type where
  /-- no node with `additive == False` in this subtree -/
  | noneFound
  /-- the first such node has at most one child: the `len(node.children) > 1`
  test fails and the function returns the empty dict -/
  | stuck
  /-- the subtree root itself is the first such node and has more than one
  child; the alternatives are its children -/
  | self (alternatives : List LItem)
  /-- the first such node lies strictly inside: for each alternative child
  name, the rebuilt subtree root after the shift -/
  | inner (parts : List (String × LItem))

/-- Result of scanning a forest: either no `additive == False` node, or the
first one has at most one child (empty result), or the list of
`(child name, new forest)` pairs produced by promoting each alternative. -/
inductive Scan : Type where
  | noneFound
  | stuck
  | branch (parts : List (String × List LItem))

mutual
/-- Scan a subtree in preorder for the first `additive == False` node
(mirroring `find_attrs`, which traverses preorder) and perform the surgery of
`expand_nonadditive_nodes` (main.py lines 246-261) at it: promoting child `C`
of node `E` moves `C` (with its subtree) to the end of the children of `E`'s
parent — `shift_nodes` to `child.get_promoted_path(levels=1)` reparents at the
end — and then deletes `E` together with its remaining children. -/
def scanItem : LItem → ScanI
  | .node n a f cs =>
    if a = some false then
      if cs.length > 1 then ScanI.self cs else ScanI.stuck
    else
      match scanL cs with
      | .branch parts => ScanI.inner (parts.map fun pr => (pr.1, LItem.node n a f pr.2))
      | .stuck => ScanI.stuck
      | .noneFound => ScanI.noneFound

/-- Scan a forest (children of some parent) left to right. When the branch
point `E` is the head of the forest, each alternative child `k` yields the
forest `rest ++ [k]`: `E` is removed at its position and `k` is appended at
the end of the parent's children. -/
def scanL : List LItem → Scan
  | [] => Scan.noneFound
  | c :: rest =>
    match scanItem c with
    | ScanI.self ks => Scan.branch (ks.map fun k => (k.name, rest ++ [k]))
    | ScanI.inner parts => Scan.branch (parts.map fun pr => (pr.1, pr.2 :: rest))
    | ScanI.stuck => Scan.stuck
    | ScanI.noneFound =>
      match scanL rest with
      | Scan.branch parts => Scan.branch (parts.map fun pr => (pr.1, c :: pr.2))
      | Scan.stuck => Scan.stuck
      | Scan.noneFound => Scan.noneFound
end

/-- `countPL` distributes over append. -/
theorem countPL_append (p : LItem → Bool) (xs ys : List LItem) :
    countPL p (xs ++ ys) = countPL p xs + countPL p ys := by
  induction xs with
  | nil => simp [countPL]
  | cons c rest ih => simp [countPL, ih, Nat.add_assoc]

/-- A member of a forest contributes at most the forest's count. -/
theorem countP_le_of_mem (p : LItem → Bool) (k : LItem) (cs : List LItem) (hk : k ∈ cs) :
    countP p k ≤ countPL p cs := by
  induction cs with
  | nil => simp at hk
  | cons c rest ih =>
    rcases List.mem_cons.mp hk with rfl | hk'
    · rw [countPL]; exact Nat.le_add_right _ _
    · rw [countPL]; exact Nat.le_trans (ih hk') (Nat.le_add_left _ _)

mutual
/-- If the scan finds the branch point strictly inside a node, each rebuilt
node has strictly fewer `p`-nodes, provided `p` ignores a change of children
on non-exclusive nodes and holds on every multi-child exclusive node. -/
theorem scanItem_inner_dec (p : LItem → Bool)
    (hp1 : ∀ n a f cs cs', ¬a = some false → p (.node n a f cs') = p (.node n a f cs))
    (hp2 : ∀ n a f cs, a = some false → cs.length > 1 → p (.node n a f cs) = true)
    (c : LItem) :
    ∀ parts, scanItem c = ScanI.inner parts → ∀ pr ∈ parts, countP p pr.2 < countP p c := by
  cases c with
  | node n a f cs =>
    intro parts hscan pr hpr
    rw [scanItem] at hscan
    by_cases ha : a = some false
    · rw [if_pos ha] at hscan
      by_cases hl : cs.length > 1
      · rw [if_pos hl] at hscan; exact absurd hscan (by simp)
      · rw [if_neg hl] at hscan; exact absurd hscan (by simp)
    · rw [if_neg ha] at hscan
      cases hs : scanL cs with
      | branch parts' =>
        rw [hs] at hscan
        have hparts : parts = parts'.map fun pr => (pr.1, LItem.node n a f pr.2) :=
          (ScanI.inner.injEq _ _).mp hscan.symm
        subst hparts
        rcases List.mem_map.mp hpr with ⟨pr', hpr', rfl⟩
        have hdec : countPL p pr'.2 < countPL p cs :=
          scanL_branch_dec p hp1 hp2 cs parts' hs pr' hpr'
        rw [countP, countP, hp1 n a f cs pr'.2 ha]
        exact Nat.add_lt_add_left hdec _
      | stuck => rw [hs] at hscan; exact absurd hscan (by simp)
      | noneFound => rw [hs] at hscan; exact absurd hscan (by simp)

/-- If the scan of a forest produces branch alternatives, every alternative
forest has strictly fewer `p`-nodes than the original forest. -/
theorem scanL_branch_dec (p : LItem → Bool)
    (hp1 : ∀ n a f cs cs', ¬a = some false → p (.node n a f cs') = p (.node n a f cs))
    (hp2 : ∀ n a f cs, a = some false → cs.length > 1 → p (.node n a f cs) = true)
    (cs : List LItem) :
    ∀ parts, scanL cs = Scan.branch parts → ∀ pr ∈ parts, countPL p pr.2 < countPL p cs := by
  cases cs with
  | nil => intro parts hscan; rw [scanL] at hscan; exact absurd hscan (by simp)
  | cons c rest =>
    intro parts hscan pr hpr
    rw [scanL] at hscan
    cases hsi : scanItem c with
    | self ks =>
      rw [hsi] at hscan
      have hparts : parts = ks.map fun k => (k.name, rest ++ [k]) :=
        (Scan.branch.injEq _ _).mp hscan.symm
      subst hparts
      rcases List.mem_map.mp hpr with ⟨k, hk, rfl⟩
      -- `self ks` arises only when `c` is exclusive with `ks = c.children`
      have hc : ∃ n a f cs0, c = LItem.node n a f cs0 ∧ a = some false
          ∧ cs0.length > 1 ∧ ks = cs0 := by
        cases c with
        | node n a f cs0 =>
          rw [scanItem] at hsi
          by_cases ha : a = some false
          · rw [if_pos ha] at hsi
            by_cases hl : cs0.length > 1
            · rw [if_pos hl] at hsi
              exact ⟨n, a, f, cs0, rfl, ha, hl, ((ScanI.self.injEq _ _).mp hsi).symm⟩
            · rw [if_neg hl] at hsi; exact absurd hsi (by simp)
          · rw [if_neg ha] at hsi
            cases hs : scanL cs0 <;> rw [hs] at hsi <;> exact absurd hsi (by simp)
      rcases hc with ⟨n, a, f, cs0, rfl, ha, hl, hks⟩
      subst hks
      have hkle : countP p k ≤ countPL p ks := countP_le_of_mem p k ks hk
      have hone : p (LItem.node n a f ks) = true := hp2 n a f ks ha hl
      rw [countPL_append, countPL, countPL, countPL, countP, hone]
      simp only [if_true]
      omega
    | inner parts' =>
      rw [hsi] at hscan
      have hparts : parts = parts'.map fun pr => (pr.1, pr.2 :: rest) :=
        (Scan.branch.injEq _ _).mp hscan.symm
      subst hparts
      rcases List.mem_map.mp hpr with ⟨pr', hpr', rfl⟩
      have hdec : countP p pr'.2 < countP p c :=
        scanItem_inner_dec p hp1 hp2 c parts' hsi pr' hpr'
      rw [countPL, countPL]
      exact Nat.add_lt_add_right hdec _
    | stuck => rw [hsi] at hscan; exact absurd hscan (by simp)
    | noneFound =>
      rw [hsi] at hscan
      cases hs : scanL rest with
      | branch parts' =>
        rw [hs] at hscan
        have hparts : parts = parts'.map fun pr => (pr.1, c :: pr.2) :=
          (Scan.branch.injEq _ _).mp hscan.symm
        subst hparts
        rcases List.mem_map.mp hpr with ⟨pr', hpr', rfl⟩
        have hdec : countPL p pr'.2 < countPL p rest :=
          scanL_branch_dec p hp1 hp2 rest parts' hs pr' hpr'
        rw [countPL, countPL]
        exact Nat.add_lt_add_left hdec _
      | stuck => rw [hs] at hscan; exact absurd hscan (by simp)
      | noneFound => rw [hs] at hscan; exact absurd hscan (by simp)
end

/-- `isExclusive` ignores the children of a node. -/
theorem isExclusive_hp1 (n : String) (a : Option Bool) (f : Option Factor)
    (cs cs' : List LItem) (_ : ¬a = some false) :
    isExclusive (.node n a f cs') = isExclusive (.node n a f cs) := by
  simp [isExclusive, LItem.additive]

/-- `isExclusive` holds on every multi-child exclusive node. -/
theorem isExclusive_hp2 (n : String) (a : Option Bool) (f : Option Factor)
    (cs : List LItem) (ha : a = some false) (_ : cs.length > 1) :
    isExclusive (.node n a f cs) = true := by
  simp [isExclusive, LItem.additive, ha]

/-- Python dict assignment `d[k] = v`: overwrite in place when the key exists
(keeping insertion order), otherwise append. -/
def dictUpsert {α : Type} (d : List (String × α)) (k : String) (v : α) :
    List (String × α) :=
  if d.any (fun kv => kv.1 = k) then
    d.map (fun kv => if kv.1 = k then (k, v) else kv)
  else
    d ++ [(k, v)]

/-- Python `d.update(e)`: upsert every entry of `e` into `d`, in order. -/
def dictUpdate {α : Type} (d e : List (String × α)) : List (String × α) :=
  e.foldl (fun acc kv => dictUpsert acc kv.1 kv.2) d

/-- `LoadCombinationSet.expand_nonadditive_nodes` (main.py lines 234-263).
`find_attrs(self, "additive", False)` collects, in preorder, the nodes whose
`additive` attribute equals `False` (the root, a `LoadCombinationSet`, never
matches).  If there is none, the tree is marked `expanded` and returned as the
singleton dict `{root.name: self}` (the attribute is set on the very tree
stored in the dict).  Otherwise only the first such node `E` is considered:
when `len(E.children) > 1` each child is promoted in a copy (the copy's root
renamed to `"{name}-{child.name}"`) and the recursive results are merged with
`dict.update`; when `E` has at most one child the `for` loop is never entered
and the function returns the **empty** dict. -/
def LoadCombinationSet.expand_nonadditive_nodes (t : LoadCombinationSet) :
    List (String × LoadCombinationSet) :=
  match h : scanL t.children with
  | Scan.noneFound => [(t.name, { t with expanded := true })]
  | Scan.stuck => []
  | Scan.branch parts =>
    parts.attach.foldl
      (fun acc pr =>
        dictUpdate acc
          (LoadCombinationSet.expand_nonadditive_nodes
            { name := t.name ++ "-" ++ pr.1.1, expanded := t.expanded,
              children := pr.1.2 }))
      []
termination_by countPL isExclusive t.children
decreasing_by
  exact scanL_branch_dec isExclusive isExclusive_hp1 isExclusive_hp2
    t.children parts h pr.1 pr.2

mutual
/-- All node names of a subtree, in preorder. -/
def LItem.namesOf : LItem → List String
  | .node n _ _ cs => n :: namesOfL cs

/-- All node names of a forest, in preorder. -/
def namesOfL : List LItem → List String
  | [] => []
  | c :: rest => c.namesOf ++ namesOfL rest
end

/-- One value of a combination's override definition (main.py lines 189-200):
either a scalar factor set on a plain group name, or a mapping of sub-group
name to scalar factor (applied under the qualified `"{group}_{subgroup}"`
name). -/
inductive OverrideData : Type where
  | scalar (f : Factor)
  | subs (m : List (String × Factor))

mutual
/-- `find_name(tree, nm)` followed by `found.set_load_factor(f)`, restricted
to a subtree: set the factor of the first preorder node named `nm` (names are
unique in the template, and `find_name` raises on several matches; the
embedding takes the first).  `none` models `find_name` returning `None`.
Setting the factor always succeeds here because these nodes live under a
`LoadCombinationSet` root. -/
def setFactorItem (nm : String) (f : Factor) : LItem → Option LItem
  | .node n a lf cs =>
    if n = nm then some (.node n a (some f) cs)
    else
      match setFactorForest nm f cs with
      | some cs' => some (.node n a lf cs')
      | none => none

/-- `setFactorItem` over a forest, preorder. -/
def setFactorForest (nm : String) (f : Factor) : List LItem → Option (List LItem)
  | [] => none
  | c :: rest =>
    match setFactorItem nm f c with
    | some c' => some (c' :: rest)
    | none =>
      match setFactorForest nm f rest with
      | some rest' => some (c :: rest')
      | none => none
end

/-- The subgroup branch of the override loop (main.py lines 190-196): for each
`(subgroup_name, factor)` of the mapping, `find_name` the qualified
`"{group}_{subgroup}"` name and call `set_load_factor` on the result with no
`None` guard — a missing name makes Python dereference `None`
(`AttributeError`), and a match on the root (a `LoadCombinationSet`, which has
no `set_load_factor` method) also raises `AttributeError`. -/
def applySubEntries (t : LoadCombinationSet) (group_name : String) :
    List (String × Factor) → Except String LoadCombinationSet
  | [] => Except.ok t
  | (sub, f) :: rest =>
    if t.name = group_name ++ "_" ++ sub then
      Except.error "AttributeError: LoadCombinationSet object has no attribute set_load_factor"
    else
      match setFactorForest (group_name ++ "_" ++ sub) f t.children with
      | some cs' => applySubEntries { t with children := cs' } group_name rest
      | none =>
        Except.error "AttributeError: NoneType object has no attribute set_load_factor"

/-- One entry `group_name -> group_data` of the override loop (main.py lines
189-200).  In the scalar branch the result of `find_name` is guarded by
`if group is not None`, so a missing plain name is silently skipped; a match
on the root still raises `AttributeError` (`find_name` searches the whole
tree, root included, and the root has no `set_load_factor`). -/
def applyOverrideEntry (t : LoadCombinationSet) (group_name : String) :
    OverrideData → Except String LoadCombinationSet
  | OverrideData.subs m => applySubEntries t group_name m
  | OverrideData.scalar f =>
    if t.name = group_name then
      Except.error "AttributeError: LoadCombinationSet object has no attribute set_load_factor"
    else
      match setFactorForest group_name f t.children with
      | some cs' => Except.ok { t with children := cs' }
      | none => Except.ok t

/-- The whole override loop of one combination (main.py lines 189-200): apply
the entries in order; a raised exception aborts the loop. -/
def applyOverrides (t : LoadCombinationSet) :
    List (String × OverrideData) → Except String LoadCombinationSet
  | [] => Except.ok t
  | (g, d) :: rest =>
    match applyOverrideEntry t g d with
    | Except.ok t' => applyOverrides t' rest
    | Except.error e => Except.error e

mutual
/-- `load_group_tree.copy()`: `copy.deepcopy`, a full value copy (every node
and link rebuilt). -/
def LItem.deepCopy : LItem → LItem
  | .node n a f cs => .node n a f (deepCopyL cs)

/-- Deep copy of a forest. -/
def deepCopyL : List LItem → List LItem
  | [] => []
  | c :: rest => c.deepCopy :: deepCopyL rest
end

/-- The loop body of `create_tree_sets` (main.py lines 183-210), threading the
template (which the Python loop only reads) and the accumulated result dict:
for each combination, a fresh `LoadCombinationSet` root receives the children
of a deep copy of the template (`extend` iterates the children of the copied
root and reparents each under the new root, so the copied `"Root"` node itself
is dropped), the overrides are applied, the tree is optionally cleaned, and
either `{name: tree}` or the expansion of the tree is merged into the result
with `dict.update`. -/
def createTreeSetsLoop (load_group_tree : LItem) (clean expand : Bool) :
    List (String × List (String × OverrideData)) →
      List (String × LoadCombinationSet) →
      Except String (LItem × List (String × LoadCombinationSet))
  | [], acc => Except.ok (load_group_tree, acc)
  | (combo_name, data) :: rest, acc =>
    let t0 : LoadCombinationSet :=
      ⟨combo_name, false, (load_group_tree.deepCopy).children⟩
    match applyOverrides t0 data with
    | Except.error e => Except.error e
    | Except.ok t1 =>
      let t2 := if clean then t1.clean_tree else t1
      let tree_dict :=
        if expand then t2.expand_nonadditive_nodes else [(combo_name, t2)]
      createTreeSetsLoop load_group_tree clean expand rest (dictUpdate acc tree_dict)

/-- `LoadCombinationSet.create_tree_sets` (main.py lines 162-211).  The pair
returned carries the template tree as the caller's reference sees it after
the call next to the dict of combination trees. -/
def LoadCombinationSet.create_tree_sets (load_group_tree : LItem)
    (load_factors : List (String × List (String × OverrideData)))
    (clean_tree expand_tree : Bool) :
    Except String (LItem × List (String × LoadCombinationSet)) :=
  createTreeSetsLoop load_group_tree clean_tree expand_tree load_factors []

mutual
/-- The `(leaf name, leaf.get_load_factor())` pairs of a subtree in preorder:
what the loop `for load_case in self.leaves` of `to_dict` (main.py lines
280-282) records.  bigtree's `leaves` is the preorder sequence of nodes
without children. -/
def leafFactorsItem (ancestors : List LItem) : LItem → List (String × Option Factor)
  | .node n a f [] => [(n, LItem.get_load_factor (.node n a f []) ancestors)]
  | .node n a f (c :: cs) =>
    leafFactorsForest (LItem.node n a f (c :: cs) :: ancestors) (c :: cs)

/-- `leafFactorsItem` over a forest. -/
def leafFactorsForest (ancestors : List LItem) : List LItem → List (String × Option Factor)
  | [] => []
  | c :: rest => leafFactorsItem ancestors c ++ leafFactorsForest ancestors rest
end

/-- The record `to_dict` builds: `{"name": ..., "load_cases": {...}}`. -/
structure CombinationDict : Type where
  name : String
  load_cases : List (String × Option Factor)

/-- `LoadCombinationSet.to_dict` (main.py lines 265-285): raise `ValueError`
when the `expanded` attribute is absent; otherwise walk `self.leaves` and
assign `load_case_dict[leaf.name] = leaf.get_load_factor()`.  When the tree
has no children, bigtree's `self.leaves` is `(self,)` — the root itself — and
the root, a `LoadCombinationSet`, has no `get_load_factor` method: Python
raises `AttributeError`. -/
def LoadCombinationSet.to_dict (t : LoadCombinationSet) : Except String CombinationDict :=
  if t.expanded = false then
    Except.error "Tree must be expanded before converting to dictionary"
  else
    match t.children with
    | [] =>
      Except.error "AttributeError: LoadCombinationSet object has no attribute get_load_factor"
    | c :: cs =>
      Except.ok
        ⟨t.name,
          (leafFactorsForest [] (c :: cs)).foldl (fun d kv => dictUpsert d kv.1 kv.2) []⟩

/-- Address a node of a forest by its path of child indices (outermost index
first): the node together with its `LoadItem` ancestor chain (immediate parent
first, on top of the ambient `ancestors`). -/
def descend : List LItem → List LItem → List Nat → Option (LItem × List LItem)
  | _, _, [] => none
  | cs, anc, i :: p =>
    match cs[i]? with
    | some c =>
      match p with
      | [] => some (c, anc)
      | _ :: _ => descend c.children (c :: anc) p
    | none => none

/-- The keep condition of `clean_tree`, accumulated along a path: the node at
the path and every node on the way down satisfy `keepPred` (evaluated on the
original tree). -/
def survivesAt : List LItem → List LItem → List Nat → Bool
  | _, _, [] => true
  | cs, anc, i :: p =>
    match cs[i]? with
    | some c => keepPred c anc && survivesAt c.children (c :: anc) p
    | none => false

/-- The survival predicate exactly as the claim states it (for comparison with
the code's condition): the node has an explicit load factor of its own, or at
least one direct child has a non-empty resolved factor via `get_load_factor`. -/
def claimKeepPred (c : LItem) (ancestors : List LItem) : Bool :=
  c.load_factor.isSome || c.check_chid_load_factors ancestors

/-- Helper: `get_load_factor` returns the first explicit factor along the
node-then-ancestors chain (and `none` if there is none). -/
theorem get_load_factor_eq_findSome (self : LItem) (ancestors : List LItem) :
    self.get_load_factor ancestors =
      ((self :: ancestors).map LItem.load_factor).findSome? id := by
  induction ancestors generalizing self with
  | nil =>
    cases h : self.load_factor <;>
      simp [LItem.get_load_factor, h, List.findSome?]
  | cons p rest ih =>
    cases h : self.load_factor with
    | none =>
      have := ih p
      simp [LItem.get_load_factor, h, List.findSome?] at this ⊢
      exact this
    | some f =>
      simp [LItem.get_load_factor, h, List.findSome?]

/-- Helper: on a chain where neither the node nor any ancestor carries an
explicit factor, `get_load_factor` resolves nothing. -/
theorem get_load_factor_none_of_noFactor (self : LItem) (ancestors : List LItem)
    (hself : self.load_factor = none)
    (hanc : ∀ a ∈ ancestors, a.load_factor = none) :
    self.get_load_factor ancestors = none := by
  induction ancestors generalizing self with
  | nil => simp [LItem.get_load_factor, hself]
  | cons p rest ih =>
    rw [LItem.get_load_factor, hself]
    exact ih p (hanc p (by simp)) (fun a ha => hanc a (by simp [ha]))

/-- Helper: a factor-free forest is made of factor-free nodes with factor-free
children. -/
theorem noFactorsL_mem (cs : List LItem) (h : noFactorsL cs = true) :
    ∀ k ∈ cs, k.load_factor = none ∧ noFactorsL k.children = true := by
  induction cs with
  | nil => intro k hk; simp at hk
  | cons d ds ih =>
    rw [noFactorsL, Bool.and_eq_true] at h
    intro k hk
    rcases List.mem_cons.mp hk with rfl | hk'
    · cases k with
      | node n a f cs' =>
        rw [LItem.noFactors, Bool.and_eq_true] at h
        refine ⟨?_, h.1.2⟩
        cases f with
        | none => rfl
        | some v => simp [Option.isNone] at h
    · exact ih h.2 k hk'

/-- Helper: in a forest with no factor attribute anywhere, below ancestors
with no factor attribute, every node is removed by the cleaning pass. -/
theorem cleanForest_eq_nil_of_noFactors (cs : List LItem) (ancestors : List LItem)
    (hcs : noFactorsL cs = true)
    (hanc : ∀ a ∈ ancestors, a.load_factor = none) :
    cleanForest ancestors cs = [] := by
  induction cs with
  | nil => rfl
  | cons c rest ih =>
    rw [noFactorsL, Bool.and_eq_true] at hcs
    have hcf : c.load_factor = none := by
      cases c with
      | node n a f cs' =>
        rw [LItem.noFactors, Bool.and_eq_true] at hcs
        have := hcs.1.1
        cases f with
        | none => rfl
        | some v => simp [Option.isNone] at this
    have hckids : noFactorsL c.children = true := by
      cases c with
      | node n a f cs' =>
        rw [LItem.noFactors, Bool.and_eq_true] at hcs
        exact hcs.1.2
    have hkids : ∀ k ∈ c.children, k.load_factor = none := by
      intro k hk
      exact (noFactorsL_mem c.children hckids k hk).1
    have hgone : keepPred c ancestors = false := by
      rw [keepPred]
      have h1 : c.get_load_factor ancestors = none :=
        get_load_factor_none_of_noFactor c ancestors hcf hanc
      have h2 : c.check_chid_load_factors ancestors = false := by
        rw [LItem.check_chid_load_factors]
        rw [List.any_eq_false]
        intro k hk
        have : k.get_load_factor (c :: ancestors) = none :=
          get_load_factor_none_of_noFactor k (c :: ancestors) (hkids k hk)
            (by
              intro a ha
              rcases List.mem_cons.mp ha with rfl | ha'
              · exact hcf
              · exact hanc a ha')
        simp [this]
      simp [h1, h2]
    rw [cleanForest, hgone]
    simp only [Bool.false_eq_true, if_false]
    exact ih hcs.2

/-- C4: `get_load_factor` returns the node's own explicit factor when set,
otherwise the parent's resolved factor obtained recursively along the
`LoadItem` ancestor chain (the chain ends where the parent falls outside the
combination tree), and `none` when neither the node nor any eligible ancestor
carries an explicit factor: it is exactly the first explicit factor along the
node-then-ancestors chain. -/
theorem getLoadFactor_inheritance (self : LItem) (ancestors : List LItem) :
    self.get_load_factor ancestors =
      ((self :: ancestors).map LItem.load_factor).findSome? id := by
  induction ancestors generalizing self with
  | nil =>
    cases h : self.load_factor <;>
      simp [LItem.get_load_factor, h, List.findSome?]
  | cons p rest ih =>
    cases h : self.load_factor with
    | none =>
      have := ih p
      simp [LItem.get_load_factor, h, List.findSome?] at this ⊢
      exact this
    | some f =>
      simp [LItem.get_load_factor, h, List.findSome?]

/-- C6: `set_load_factor` succeeds, recording the factor as the node's
explicit factor, exactly when the ultimate root of the node's tree is a
`LoadCombinationSet`; otherwise it raises the `ValueError` and no node value
with the factor set is produced.  Freshly constructed `LoadItem`s (hence every
node of the template tree, whose root is a `LoadItem`) carry no explicit
factor. -/
theorem setLoadFactor_requires_combination_root (self : LItem) (rk : RootKind) (f : Factor) :
    (self.set_load_factor rk f = Except.ok (self.withFactor f) ↔ rk = RootKind.comboRoot)
    ∧ (self.set_load_factor rk f =
        Except.error "Cannot set load factor if not part of LoadCombinationSet"
        ↔ rk = RootKind.itemRoot)
    ∧ (self.withFactor f).load_factor = some f
    ∧ (∀ nm a, (LItem.init nm a).load_factor = none) := by
  cases rk <;>
    cases self <;>
      simp [LItem.set_load_factor, LItem.check_root_is_combination_set,
        LItem.withFactor, LItem.load_factor, LItem.init]

/-- C10: `clean_tree` never removes the root: the removal condition is only
ever evaluated on `LoadItem` nodes and the root is a `LoadCombinationSet`, so
the root (and its name) survives every pruning pass — even when no node in the
tree carries a factor and every subtree below the root is deleted. -/
theorem cleanTree_preserves_root (t : LoadCombinationSet) :
    (t.clean_tree).name = t.name
    ∧ (noFactorsL t.children = true → (t.clean_tree).children = []) := by
  constructor
  · rfl
  · intro h
    show cleanForest [] t.children = []
    exact cleanForest_eq_nil_of_noFactors t.children [] h (by intro a ha; simp at ha)

/-- Witness for C10 at a concrete tree: a combination tree whose nodes carry
no factor at all loses every subtree but keeps its root and name. -/
theorem cleanTree_preserves_root_witness :
    (LoadCombinationSet.clean_tree
        ⟨"LRFD1", false, [LItem.node "Dead" (some true) none [LItem.node "DL" none none []]]⟩).name
      = "LRFD1"
    ∧ (LoadCombinationSet.clean_tree
        ⟨"LRFD1", false, [LItem.node "Dead" (some true) none [LItem.node "DL" none none []]]⟩).children
      = [] := by
  refine ⟨(cleanTree_preserves_root _).1, (cleanTree_preserves_root _).2 ?_⟩
  rfl

/-- C9: each recursive call of `expand_nonadditive_nodes` works on a tree in
which the number of exclusive nodes with more than one child has strictly
decreased: promoting a child of the chosen branch point `E` removes `E` (and
the discarded siblings' subtrees) without creating any new multi-child
exclusive node, so the recursion bottoms out after finitely many steps (the
Lean embedding of the function is total by exactly this measure). -/
theorem expand_recursion_measure_decreases (cs : List LItem)
    (parts : List (String × List LItem)) (h : scanL cs = Scan.branch parts) :
    ∀ pr ∈ parts, countPL isMultiExclusive pr.2 < countPL isMultiExclusive cs := by
  refine scanL_branch_dec isMultiExclusive ?_ ?_ cs parts h
  · intro n a f cs1 cs' ha
    simp [isMultiExclusive, isExclusive, LItem.additive, ha, LItem.children]
  · intro n a f cs1 ha hl
    simp [isMultiExclusive, isExclusive, LItem.additive, ha, LItem.children, hl]

/-- Witness for C9: on the combination tree with children
`[Live(additive=False)[Perm, Pattern]]` the scan yields the two promoted
forests `[Perm]` and `[Pattern]`, and each carries strictly fewer multi-child
exclusive nodes (0 < 1). -/
theorem expand_recursion_measure_decreases_witness :
    countPL isMultiExclusive [LItem.node "Live_Perm" (some true) (some 1) []]
      < countPL isMultiExclusive
        [LItem.node "Live" (some false) none
          [LItem.node "Live_Perm" (some true) (some 1) [],
           LItem.node "Live_Pattern" (some true) (some 1) []]] := by
  refine expand_recursion_measure_decreases
    [LItem.node "Live" (some false) none
      [LItem.node "Live_Perm" (some true) (some 1) [],
       LItem.node "Live_Pattern" (some true) (some 1) []]]
    [("Live_Perm", [LItem.node "Live_Perm" (some true) (some 1) []]),
     ("Live_Pattern", [LItem.node "Live_Pattern" (some true) (some 1) []])]
    (by rfl)
    ("Live_Perm", [LItem.node "Live_Perm" (some true) (some 1) []])
    (by simp)

/-- C2 (failing input): the combination tree `LRFD2` whose only exclusive node
`Dead` has exactly one child contains no exclusive node with more than one
child, yet `expand_nonadditive_nodes` returns the empty dict — not the
singleton `{tree.name: tree}` with the `expanded` marker that the claim (and
the program's own header comment, main.py lines 17-20) promises. -/
theorem expand_drops_tree_with_single_child_exclusive :
    countPL isMultiExclusive
        [LItem.node "Dead" (some false) none
          [LItem.node "Dead_Main" (some true) (some 1) []]] = 0
    ∧ LoadCombinationSet.expand_nonadditive_nodes
        ⟨"LRFD2", false,
          [LItem.node "Dead" (some false) none
            [LItem.node "Dead_Main" (some true) (some 1) []]]⟩ = [] := by
  constructor
  · rfl
  · rw [LoadCombinationSet.expand_nonadditive_nodes.eq_def]
    rfl

/-- C3 (failing input): the pruned combination tree `LRFD2` from the example
documented at the top of main.py — `Dead` exclusive with one sub-group, `Live`
exclusive with three sub-groups.  The product over every multi-child exclusive
node of its child count is 3 (the header comment promises three combinations),
but `expand_nonadditive_nodes` returns the empty dict: 0 entries, not 3. -/
theorem expand_count_violates_product_law :
    LoadCombinationSet.clean_tree
        ⟨"LRFD2", false,
          [LItem.node "Dead" (some false) none
            [LItem.node "Dead_Main" (some true) (some 1) []],
           LItem.node "Live" (some false) none
            [LItem.node "Live_Perm" (some true) (some 1) [],
             LItem.node "Live_Construction" (some true) (some 1) [],
             LItem.node "Live_Pattern" (some true) (some 1) []]]⟩
      = ⟨"LRFD2", false,
          [LItem.node "Dead" (some false) none
            [LItem.node "Dead_Main" (some true) (some 1) []],
           LItem.node "Live" (some false) none
            [LItem.node "Live_Perm" (some true) (some 1) [],
             LItem.node "Live_Construction" (some true) (some 1) [],
             LItem.node "Live_Pattern" (some true) (some 1) []]]⟩
    ∧ branchProductL
        [LItem.node "Dead" (some false) none
          [LItem.node "Dead_Main" (some true) (some 1) []],
         LItem.node "Live" (some false) none
          [LItem.node "Live_Perm" (some true) (some 1) [],
           LItem.node "Live_Construction" (some true) (some 1) [],
           LItem.node "Live_Pattern" (some true) (some 1) []]] = 3
    ∧ (LoadCombinationSet.expand_nonadditive_nodes
        ⟨"LRFD2", false,
          [LItem.node "Dead" (some false) none
            [LItem.node "Dead_Main" (some true) (some 1) []],
           LItem.node "Live" (some false) none
            [LItem.node "Live_Perm" (some true) (some 1) [],
             LItem.node "Live_Construction" (some true) (some 1) [],
             LItem.node "Live_Pattern" (some true) (some 1) []]]⟩).length = 0 := by
  refine ⟨by rfl, by rfl, ?_⟩
  rw [LoadCombinationSet.expand_nonadditive_nodes.eq_def]
  rfl

mutual
/-- `find_name` fails on a subtree exactly when no node of it bears the
name. -/
theorem setFactorItem_none_iff (nm : String) (f : Factor) (c : LItem) :
    setFactorItem nm f c = none ↔ nm ∉ c.namesOf := by
  cases c with
  | node n a lf cs =>
    rw [setFactorItem, LItem.namesOf]
    by_cases hn : n = nm
    · rw [if_pos hn]
      simp [List.mem_cons, hn]
    · rw [if_neg hn]
      have hf := setFactorForest_none_iff nm f cs
      cases hs : setFactorForest nm f cs with
      | some cs' =>
        rw [hs] at hf
        have hmem : nm ∈ namesOfL cs := by
          by_contra hno
          exact absurd (hf.mpr hno) (by simp)
        simp [List.mem_cons, hmem]
      | none =>
        rw [hs] at hf
        have hno : nm ∉ namesOfL cs := hf.mp rfl
        have hn' : ¬nm = n := fun hh => hn hh.symm
        simp [List.mem_cons, hno, hn']

/-- `find_name` fails on a forest exactly when no node of it bears the
name. -/
theorem setFactorForest_none_iff (nm : String) (f : Factor) (cs : List LItem) :
    setFactorForest nm f cs = none ↔ nm ∉ namesOfL cs := by
  cases cs with
  | nil => simp [setFactorForest, namesOfL]
  | cons c rest =>
    rw [setFactorForest, namesOfL]
    have hi := setFactorItem_none_iff nm f c
    have hr := setFactorForest_none_iff nm f rest
    cases h1 : setFactorItem nm f c with
    | some c' =>
      rw [h1] at hi
      have hmem : nm ∈ c.namesOf := by
        by_contra hno
        exact absurd (hi.mpr hno) (by simp)
      simp [List.mem_append, hmem]
    | none =>
      rw [h1] at hi
      have hnoc : nm ∉ c.namesOf := hi.mp rfl
      cases h2 : setFactorForest nm f rest with
      | some rest' =>
        rw [h2] at hr
        have hmem : nm ∈ namesOfL rest := by
          by_contra hno
          exact absurd (hr.mpr hno) (by simp)
        simp [List.mem_append, hmem]
      | none =>
        rw [h2] at hr
        have hnor : nm ∉ namesOfL rest := hr.mp rfl
        simp [List.mem_append, hnoc, hnor]
end

mutual
/-- Setting a factor never changes any node name of a subtree. -/
theorem setFactorItem_names (nm : String) (f : Factor) (c c' : LItem)
    (h : setFactorItem nm f c = some c') : c'.namesOf = c.namesOf := by
  cases c with
  | node n a lf cs =>
    rw [setFactorItem] at h
    by_cases hn : n = nm
    · rw [if_pos hn] at h
      have : c' = LItem.node n a (some f) cs := by
        injection h with h'; exact h'.symm
      subst this
      rfl
    · rw [if_neg hn] at h
      cases hs : setFactorForest nm f cs with
      | some cs' =>
        rw [hs] at h
        have : c' = LItem.node n a lf cs' := by
          injection h with h'; exact h'.symm
        subst this
        rw [LItem.namesOf, LItem.namesOf, setFactorForest_names nm f cs cs' hs]
      | none => rw [hs] at h; exact absurd h (by simp)

/-- Setting a factor never changes any node name of a forest. -/
theorem setFactorForest_names (nm : String) (f : Factor) (cs cs' : List LItem)
    (h : setFactorForest nm f cs = some cs') : namesOfL cs' = namesOfL cs := by
  cases cs with
  | nil => rw [setFactorForest] at h; exact absurd h (by simp)
  | cons c rest =>
    rw [setFactorForest] at h
    cases h1 : setFactorItem nm f c with
    | some c1 =>
      rw [h1] at h
      have : cs' = c1 :: rest := by
        injection h with h'; exact h'.symm
      subst this
      rw [namesOfL, namesOfL, setFactorItem_names nm f c c1 h1]
    | none =>
      rw [h1] at h
      cases h2 : setFactorForest nm f rest with
      | some rest' =>
        rw [h2] at h
        have : cs' = c :: rest' := by
          injection h with h'; exact h'.symm
        subst this
        rw [namesOfL, namesOfL, setFactorForest_names nm f rest rest' h2]
      | none => rw [h2] at h; exact absurd h (by simp)
end

/-- Applying subgroup overrides preserves the root name and all node names. -/
theorem applySubEntries_names (g : String) (m : List (String × Factor))
    (t t' : LoadCombinationSet) (h : applySubEntries t g m = Except.ok t') :
    t'.name = t.name ∧ namesOfL t'.children = namesOfL t.children := by
  induction m generalizing t with
  | nil =>
    rw [applySubEntries] at h
    have : t' = t := by injection h with h'; exact h'.symm
    subst this; exact ⟨rfl, rfl⟩
  | cons e rest ih =>
    obtain ⟨sub, f⟩ := e
    rw [applySubEntries] at h
    by_cases hr : t.name = g ++ "_" ++ sub
    · rw [if_pos hr] at h; exact absurd h (by simp)
    · rw [if_neg hr] at h
      cases hs : setFactorForest (g ++ "_" ++ sub) f t.children with
      | some cs' =>
        rw [hs] at h
        have := ih { t with children := cs' } h
        refine ⟨this.1, ?_⟩
        rw [this.2]
        exact setFactorForest_names _ f t.children cs' hs
      | none => rw [hs] at h; exact absurd h (by simp)

/-- Applying one override entry preserves the root name and all node names. -/
theorem applyOverrideEntry_names (g : String) (d : OverrideData)
    (t t' : LoadCombinationSet) (h : applyOverrideEntry t g d = Except.ok t') :
    t'.name = t.name ∧ namesOfL t'.children = namesOfL t.children := by
  cases d with
  | subs m => exact applySubEntries_names g m t t' h
  | scalar f =>
    rw [applyOverrideEntry] at h
    by_cases hr : t.name = g
    · rw [if_pos hr] at h; exact absurd h (by simp)
    · rw [if_neg hr] at h
      cases hs : setFactorForest g f t.children with
      | some cs' =>
        rw [hs] at h
        have : t' = { t with children := cs' } := by injection h with h'; exact h'.symm
        subst this
        exact ⟨rfl, setFactorForest_names g f t.children cs' hs⟩
      | none =>
        rw [hs] at h
        have : t' = t := by injection h with h'; exact h'.symm
        subst this; exact ⟨rfl, rfl⟩

/-- C1 amended: an override entry that sets a scalar factor on a plain group
name absent from the combination tree is silently skipped — no error, and the
result over the whole override list equals the result with that entry removed.
A subgroup override entry whose qualified `"{group}_{subgroup}"` name is
absent is **not** skipped: the unguarded `subgroup.set_load_factor(...)` call
dereferences `None` and raises `AttributeError`. -/
theorem overrideMissingName_skip_or_raise
    (t : LoadCombinationSet) (nm g s : String) (f f2 : Factor)
    (pre post post2 : List (String × OverrideData)) (m : List (String × Factor))
    (h1 : ¬t.name = nm) (h2 : nm ∉ namesOfL t.children) (hq : nm = g ++ "_" ++ s) :
    applyOverrides t (pre ++ (nm, OverrideData.scalar f) :: post)
        = applyOverrides t (pre ++ post)
    ∧ applyOverrides t ((g, OverrideData.subs ((s, f2) :: m)) :: post2)
        = Except.error "AttributeError: NoneType object has no attribute set_load_factor" := by
  constructor
  · induction pre generalizing t with
    | nil =>
      rw [List.nil_append, List.nil_append, applyOverrides, applyOverrideEntry,
        if_neg h1, (setFactorForest_none_iff nm f t.children).mpr h2]
    | cons e rest ih =>
      obtain ⟨eg, ed⟩ := e
      rw [List.cons_append, applyOverrides, List.cons_append, applyOverrides]
      cases happ : applyOverrideEntry t eg ed with
      | error msg => rfl
      | ok t1 =>
        have hn := applyOverrideEntry_names eg ed t t1 happ
        exact ih t1 (by rw [hn.1]; exact h1) (by rw [hn.2]; exact h2)
  · rw [applyOverrides, applyOverrideEntry, applySubEntries, if_neg (by rw [← hq]; exact h1),
      (setFactorForest_none_iff (g ++ "_" ++ s) f2 t.children).mpr (by rw [← hq]; exact h2)]

/-- Witness for the amended C1 at a concrete combination tree without any
Wind group: the scalar override "Wind_North" is skipped while the subgroup
override Wind -> North raises. -/
theorem overrideMissingName_skip_or_raise_witness :
    applyOverrides
        ⟨"LRFD1", false, [LItem.node "Dead" (some true) none []]⟩
        [("Wind_North", OverrideData.scalar 1)]
      = applyOverrides ⟨"LRFD1", false, [LItem.node "Dead" (some true) none []]⟩ []
    ∧ applyOverrides
        ⟨"LRFD1", false, [LItem.node "Dead" (some true) none []]⟩
        [("Wind", OverrideData.subs [("North", 2)])]
      = Except.error "AttributeError: NoneType object has no attribute set_load_factor" := by
  have h := overrideMissingName_skip_or_raise
    ⟨"LRFD1", false, [LItem.node "Dead" (some true) none []]⟩
    "Wind_North" "Wind" "North" 1 2 [] [] [] []
    (by decide) (by decide) (by decide)
  exact ⟨h.1, h.2⟩

/-- C1 counterexample: on a template without any Wind group, a single
combination whose override maps the subgroup `"North"` of the absent group
`"Wind"` makes `create_tree_sets` raise (`AttributeError` on `None`), instead
of silently skipping the entry as the claim states. -/
theorem createTreeSets_missing_subgroup_override_raises :
    LoadCombinationSet.create_tree_sets
        (LItem.node "Root" none none
          [LItem.node "Dead" (some true) none [LItem.node "DL" none none []]])
        [("LRFD1", [("Wind", OverrideData.subs [("North", 1)])])] true false
      = Except.error "AttributeError: NoneType object has no attribute set_load_factor" := by
  rfl

/-- The loop of `create_tree_sets` returns the template component untouched:
every mutation acts on the deep copy placed under the combination root. -/
theorem createTreeSetsLoop_template (tpl : LItem) (c e : Bool)
    (lf : List (String × List (String × OverrideData)))
    (acc : List (String × LoadCombinationSet))
    (r : LItem × List (String × LoadCombinationSet))
    (h : createTreeSetsLoop tpl c e lf acc = Except.ok r) : r.1 = tpl := by
  induction lf generalizing acc with
  | nil =>
    rw [createTreeSetsLoop] at h
    have : r = (tpl, acc) := by injection h with h'; exact h'.symm
    subst this; rfl
  | cons hd rest ih =>
    obtain ⟨cn, d⟩ := hd
    rw [createTreeSetsLoop] at h
    cases happ : applyOverrides ⟨cn, false, (tpl.deepCopy).children⟩ d with
    | error msg => rw [happ] at h; exact absurd h (by simp)
    | ok t1 =>
      rw [happ] at h
      exact ih _ h

/-- C8: `create_tree_sets` (overrides, pruning and expansion of every
combination included) leaves the template tree completely unchanged: each
combination works on `load_group_tree.copy()`, a deep copy, so the template
component of the result is identical to the input template. -/
theorem createTreeSets_leaves_template_unchanged (tpl : LItem)
    (lf : List (String × List (String × OverrideData))) (c e : Bool)
    (r : LItem × List (String × LoadCombinationSet))
    (h : LoadCombinationSet.create_tree_sets tpl lf c e = Except.ok r) : r.1 = tpl :=
  createTreeSetsLoop_template tpl c e lf [] r h

/-- Witness for C8: a concrete run (clean only) returns the template
untouched next to its combination dict. -/
theorem createTreeSets_leaves_template_unchanged_witness :
    (LItem.node "Root" none none
        [LItem.node "Dead" (some true) none [LItem.node "DL" none none []]],
      [("LRFD1",
        (⟨"LRFD1", false,
          [LItem.node "Dead" (some true) (some 2) [LItem.node "DL" none none []]]⟩ :
          LoadCombinationSet))]).1
      = LItem.node "Root" none none
          [LItem.node "Dead" (some true) none [LItem.node "DL" none none []]] :=
  createTreeSets_leaves_template_unchanged
    (LItem.node "Root" none none
      [LItem.node "Dead" (some true) none [LItem.node "DL" none none []]])
    [("LRFD1", [("Dead", OverrideData.scalar 2)])] true false
    (LItem.node "Root" none none
        [LItem.node "Dead" (some true) none [LItem.node "DL" none none []]],
      [("LRFD1",
        ⟨"LRFD1", false,
          [LItem.node "Dead" (some true) (some 2) [LItem.node "DL" none none []]]⟩)])
    (by rfl)

/-- An upsert of a fresh key appends. -/
theorem dictUpsert_fresh {α : Type} (d : List (String × α)) (k : String) (v : α)
    (h : d.any (fun kv => kv.1 = k) = false) : dictUpsert d k v = d ++ [(k, v)] := by
  rw [dictUpsert, h]
  simp

/-- Folding Python dict assignments over pairs with pairwise-distinct keys,
starting from a dict whose keys are disjoint from theirs, appends them all. -/
theorem foldl_upsert_nodup {α : Type} (kvs : List (String × α)) (acc : List (String × α))
    (hnodup : (kvs.map Prod.fst).Nodup)
    (hdisj : ∀ kv ∈ kvs, acc.any (fun av => av.1 = kv.1) = false) :
    kvs.foldl (fun d kv => dictUpsert d kv.1 kv.2) acc = acc ++ kvs := by
  induction kvs generalizing acc with
  | nil => simp
  | cons kv rest ih =>
    rw [List.foldl_cons, dictUpsert_fresh acc kv.1 kv.2 (hdisj kv (by simp))]
    rw [List.map_cons, List.nodup_cons] at hnodup
    rw [ih (acc ++ [(kv.1, kv.2)]) hnodup.2 ?_]
    · simp
    · intro kv' hkv'
      rw [List.any_append]
      have h1 : acc.any (fun av => av.1 = kv'.1) = false := hdisj kv' (by simp [hkv'])
      have h2 : kv'.1 ≠ kv.1 := by
        intro heq
        exact hnodup.1 (heq ▸ List.mem_map.mpr ⟨kv', hkv', rfl⟩)
      simp [h1]
      exact fun hh => h2 hh.symm

/-- C7 amended: `to_dict` raises the `NotExpanded` error exactly when the
root lacks the `expanded` marker; with the marker present and at least one
child it returns the record of the tree's name and, leaf by leaf, the leaf's
resolved factor (when leaf names are pairwise distinct the mapping is exactly
the `(leafName, get_load_factor(leaf))` list).  A marked tree with **no**
children instead raises `AttributeError`: its only leaf is the root itself and
the root has no `get_load_factor` method. -/
theorem toDict_spec (t : LoadCombinationSet) :
    (t.to_dict = Except.error "Tree must be expanded before converting to dictionary"
      ↔ t.expanded = false)
    ∧ (t.expanded = true → t.children ≠ [] →
        ∃ d, t.to_dict = Except.ok ⟨t.name, d⟩
          ∧ (((leafFactorsForest [] t.children).map Prod.fst).Nodup →
              d = leafFactorsForest [] t.children)) := by
  constructor
  · cases he : t.expanded with
    | false => simp [LoadCombinationSet.to_dict, he]
    | true =>
      rw [LoadCombinationSet.to_dict, he]
      cases hc : t.children with
      | nil => simp
      | cons c cs => simp
  · intro he hc
    rw [LoadCombinationSet.to_dict, he]
    cases hcs : t.children with
    | nil => exact absurd hcs hc
    | cons c cs =>
      refine ⟨(leafFactorsForest [] (c :: cs)).foldl (fun d kv => dictUpsert d kv.1 kv.2) [],
        by simp, ?_⟩
      intro hnodup
      rw [← hcs] at hnodup ⊢
      rw [hcs] at hnodup ⊢
      rw [foldl_upsert_nodup (leafFactorsForest [] (c :: cs)) [] hnodup (by intro kv _; rfl)]
      simp

/-- C7 counterexample: a tree carrying the `expanded` marker but no children
makes `to_dict` raise (`AttributeError`) rather than return a record — the
root itself is its only leaf, and a `LoadCombinationSet` has no
`get_load_factor`. -/
theorem toDict_marked_childless_raises :
    LoadCombinationSet.to_dict ⟨"LRFD1", true, []⟩
      = Except.error "AttributeError: LoadCombinationSet object has no attribute get_load_factor" := by
  rfl

/-- Witness for the amended C7 at a concrete terminal tree: the flat record
maps the single leaf `DL` to its inherited factor. -/
theorem toDict_spec_witness :
    LoadCombinationSet.to_dict
        ⟨"LRFD1", true, [LItem.node "Dead" (some true) (some 1) [LItem.node "DL" none none []]]⟩
      = Except.ok ⟨"LRFD1", [("DL", some 1)]⟩ := by
  obtain ⟨d, hd, hnod⟩ :=
    (toDict_spec
      ⟨"LRFD1", true, [LItem.node "Dead" (some true) (some 1) [LItem.node "DL" none none []]]⟩).2
      rfl (by simp)
  have hdl : d = [("DL", some 1)] := by
    rw [hnod (by decide)]
    rfl
  rw [hdl] at hd
  exact hd

/-- C5 counterexample, on the combination forest
`[D [E(factor 1) [G]], A [B [K(factor 1)]]]` with empty ancestor chain:
the leaf `G` (no explicit factor, no children) fails the claim's predicate yet
survives `clean_tree` (it resolves factor 1 from `E`), while `B` satisfies the
claim's predicate (its child `K` resolves an explicit factor) yet is removed,
because its parent `A` resolves nothing and `A`'s removal deletes the whole
subtree.  So neither direction of the claimed equivalence holds. -/
theorem cleanTree_claim_predicate_counterexample :
    ("G" ∈ namesOfL (cleanForest []
        [LItem.node "D" none none
          [LItem.node "E" none (some 1) [LItem.node "G" none none []]],
         LItem.node "A" none none
          [LItem.node "B" none none [LItem.node "K" none (some 1) []]]]))
    ∧ claimKeepPred (LItem.node "G" none none [])
        [LItem.node "E" none (some 1) [LItem.node "G" none none []],
         LItem.node "D" none none
          [LItem.node "E" none (some 1) [LItem.node "G" none none []]]] = false
    ∧ ("B" ∉ namesOfL (cleanForest []
        [LItem.node "D" none none
          [LItem.node "E" none (some 1) [LItem.node "G" none none []]],
         LItem.node "A" none none
          [LItem.node "B" none none [LItem.node "K" none (some 1) []]]]))
    ∧ claimKeepPred (LItem.node "B" none none [LItem.node "K" none (some 1) []])
        [LItem.node "A" none none
          [LItem.node "B" none none [LItem.node "K" none (some 1) []]]] = true := by
  refine ⟨by decide, by decide, by decide, by decide⟩

/-- The cleaned version of a kept node: same name, children cleaned below the
original node pushed on the chain. -/
theorem cleanItem_namesOf (anc : List LItem) (c : LItem) :
    (cleanItem anc c).namesOf = c.name :: namesOfL (cleanForest (c :: anc) c.children) := by
  cases c with
  | node n a f cs => rfl

mutual
/-- Cleaning only removes names from a subtree. -/
theorem cleanItem_namesOf_sublist (anc : List LItem) (c : LItem) :
    (cleanItem anc c).namesOf.Sublist c.namesOf := by
  cases c with
  | node n a f cs =>
    rw [cleanItem, LItem.namesOf, LItem.namesOf]
    exact List.Sublist.cons₂ n (cleanForest_namesOf_sublist (LItem.node n a f cs :: anc) cs)

/-- Cleaning only removes names from a forest. -/
theorem cleanForest_namesOf_sublist (anc : List LItem) (cs : List LItem) :
    (namesOfL (cleanForest anc cs)).Sublist (namesOfL cs) := by
  cases cs with
  | nil => exact List.Sublist.refl _
  | cons c rest =>
    rw [cleanForest, namesOfL]
    by_cases hk : keepPred c anc = true
    · rw [if_pos hk, namesOfL]
      exact List.Sublist.append (cleanItem_namesOf_sublist anc c)
        (cleanForest_namesOf_sublist anc rest)
    · rw [if_neg hk]
      exact List.Sublist.trans (cleanForest_namesOf_sublist anc rest)
        (List.sublist_append_right _ _)
end

/-- A node's name heads its own name list. -/
theorem name_mem_namesOf (c : LItem) : c.name ∈ c.namesOf := by
  cases c with
  | node n a f cs => rw [LItem.namesOf, LItem.name]; exact List.mem_cons_self n _

/-- Names of a member subtree are names of the forest. -/
theorem namesOf_subset_of_mem (c : LItem) (cs : List LItem) (h : c ∈ cs) :
    ∀ x ∈ c.namesOf, x ∈ namesOfL cs := by
  induction cs with
  | nil => simp at h
  | cons d rest ih =>
    intro x hx
    rw [namesOfL, List.mem_append]
    rcases List.mem_cons.mp h with rfl | h'
    · exact Or.inl hx
    · exact Or.inr (ih h' x hx)

/-- The names of a forest's member subtrees are pairwise separated: a nodup
name list of the forest gives a nodup name list of each member. -/
theorem nodup_namesOf_of_mem (c : LItem) (cs : List LItem)
    (hnodup : (namesOfL cs).Nodup) (h : c ∈ cs) : c.namesOf.Nodup := by
  induction cs with
  | nil => simp at h
  | cons d rest ih =>
    rw [namesOfL, List.nodup_append] at hnodup
    rcases List.mem_cons.mp h with rfl | h'
    · exact hnodup.1
    · exact ih hnodup.2.1 h'

/-- The node reached by a path carries a name of the forest. -/
theorem descend_name_mem (p : List Nat) (cs : List LItem) (anc : List LItem)
    (c : LItem) (anc' : List LItem) (h : descend cs anc p = some (c, anc')) :
    c.name ∈ namesOfL cs := by
  induction p generalizing cs anc with
  | nil => rw [descend] at h; exact absurd h (by simp)
  | cons i p' ih =>
    rw [descend] at h
    cases hget : cs[i]? with
    | none => rw [hget] at h; exact absurd h (by simp)
    | some c0 =>
      rw [hget] at h
      have hc0 : c0 ∈ cs := by
        have := List.getElem?_eq_some_iff.mp hget
        rcases this with ⟨hlt, heq⟩
        exact heq ▸ List.getElem_mem hlt
      cases p' with
      | nil =>
        have hcc : c = c0 ∧ anc' = anc := by
          injection h with h'
          injection h' with ha hb
          exact ⟨ha.symm, hb.symm⟩
        rw [hcc.1]
        exact namesOf_subset_of_mem c0 cs hc0 c0.name (name_mem_namesOf c0)
      | cons j q =>
        have hmem : c.name ∈ namesOfL c0.children := ih c0.children (c0 :: anc) h
        refine namesOf_subset_of_mem c0 cs hc0 c.name ?_
        cases c0 with
        | node n a f cs0 =>
          rw [LItem.namesOf]
          rw [LItem.children] at hmem
          exact List.mem_cons_of_mem n hmem

/-- A kept node's cleaned names all appear in the cleaned forest. -/
theorem mem_clean_of_keep (anc : List LItem) (cs : List LItem) (i : Nat) (c0 : LItem)
    (hget : cs[i]? = some c0) (hkeep : keepPred c0 anc = true) :
    ∀ x ∈ (cleanItem anc c0).namesOf, x ∈ namesOfL (cleanForest anc cs) := by
  induction cs generalizing i with
  | nil => simp at hget
  | cons d rest ih =>
    intro x hx
    cases i with
    | zero =>
      rw [List.getElem?_cons_zero] at hget
      have : c0 = d := by
        injection hget with hh
        exact hh.symm
      subst this
      rw [cleanForest, if_pos hkeep, namesOfL, List.mem_append]
      exact Or.inl hx
    | succ j =>
      rw [List.getElem?_cons_succ] at hget
      rw [cleanForest]
      by_cases hk : keepPred d anc = true
      · rw [if_pos hk, namesOfL, List.mem_append]
        exact Or.inr (ih j hget x hx)
      · rw [if_neg hk]
        exact ih j hget x hx

/-- No name of a dropped node's subtree appears in the cleaned forest (names
unique). -/
theorem not_mem_clean_of_drop (anc : List LItem) (cs : List LItem) (i : Nat) (c0 : LItem)
    (hnodup : (namesOfL cs).Nodup) (hget : cs[i]? = some c0)
    (hdrop : keepPred c0 anc = false) :
    ∀ x ∈ c0.namesOf, x ∉ namesOfL (cleanForest anc cs) := by
  induction cs generalizing i with
  | nil => simp at hget
  | cons d rest ih =>
    intro x hx hmem
    rw [namesOfL, List.nodup_append] at hnodup
    cases i with
    | zero =>
      rw [List.getElem?_cons_zero] at hget
      have : c0 = d := by
        injection hget with hh
        exact hh.symm
      subst this
      rw [cleanForest, hdrop] at hmem
      simp only [Bool.false_eq_true, if_false] at hmem
      have : x ∈ namesOfL rest :=
        (cleanForest_namesOf_sublist anc rest).subset hmem
      exact hnodup.2.2 hx this
    | succ j =>
      rw [List.getElem?_cons_succ] at hget
      have hc0rest : c0 ∈ rest := by
        rcases List.getElem?_eq_some_iff.mp hget with ⟨hlt, heq⟩
        exact heq ▸ List.getElem_mem hlt
      have hxrest : x ∈ namesOfL rest := namesOf_subset_of_mem c0 rest hc0rest x hx
      rw [cleanForest] at hmem
      by_cases hk : keepPred d anc = true
      · rw [if_pos hk, namesOfL, List.mem_append] at hmem
        rcases hmem with hl | hr
        · have : x ∈ d.namesOf := (cleanItem_namesOf_sublist anc d).subset hl
          exact hnodup.2.2 this hxrest
        · exact ih j hnodup.2.1 hget x hx hr
      · rw [if_neg hk] at hmem
        exact ih j hnodup.2.1 hget x hx hmem

/-- A name of a kept node's subtree that appears in the cleaned forest appears
inside that node's cleaned subtree (names unique). -/
theorem mem_clean_localized (anc : List LItem) (cs : List LItem) (i : Nat) (c0 : LItem)
    (hnodup : (namesOfL cs).Nodup) (hget : cs[i]? = some c0) (x : String)
    (hxin : x ∈ c0.namesOf) (hxmem : x ∈ namesOfL (cleanForest anc cs)) :
    x ∈ (cleanItem anc c0).namesOf := by
  induction cs generalizing i with
  | nil => simp at hget
  | cons d rest ih =>
    rw [namesOfL, List.nodup_append] at hnodup
    cases i with
    | zero =>
      rw [List.getElem?_cons_zero] at hget
      have : c0 = d := by
        injection hget with hh
        exact hh.symm
      subst this
      rw [cleanForest] at hxmem
      by_cases hk : keepPred c0 anc = true
      · rw [if_pos hk, namesOfL, List.mem_append] at hxmem
        rcases hxmem with hl | hr
        · exact hl
        · have : x ∈ namesOfL rest := (cleanForest_namesOf_sublist anc rest).subset hr
          exact absurd this (hnodup.2.2 hxin)
      · rw [if_neg hk] at hxmem
        have : x ∈ namesOfL rest := (cleanForest_namesOf_sublist anc rest).subset hxmem
        exact absurd this (hnodup.2.2 hxin)
    | succ j =>
      rw [List.getElem?_cons_succ] at hget
      have hc0rest : c0 ∈ rest := by
        rcases List.getElem?_eq_some_iff.mp hget with ⟨hlt, heq⟩
        exact heq ▸ List.getElem_mem hlt
      have hxrest : x ∈ namesOfL rest := namesOf_subset_of_mem c0 rest hc0rest x hxin
      rw [cleanForest] at hxmem
      by_cases hk : keepPred d anc = true
      · rw [if_pos hk, namesOfL, List.mem_append] at hxmem
        rcases hxmem with hl | hr
        · have : x ∈ d.namesOf := (cleanItem_namesOf_sublist anc d).subset hl
          exact absurd hxrest (by intro hc; exact hnodup.2.2 this hc)
        · exact ih j hnodup.2.1 hget hr
      · rw [if_neg hk] at hxmem
        exact ih j hnodup.2.1 hget hxmem

/-- One-pass pruning keeps exactly the nodes all of whose path prefixes pass
the code's keep condition (names unique): presence of a node's name in the
cleaned forest is equivalent to `keepPred` holding at the node and at every
`LoadItem` ancestor, all evaluated on the original tree. -/
theorem clean_mem_iff (p : List Nat) :
    ∀ (cs anc : List LItem) (c : LItem) (anc' : List LItem),
      (namesOfL cs).Nodup → descend cs anc p = some (c, anc') →
      ((c.name ∈ namesOfL (cleanForest anc cs)) ↔ survivesAt cs anc p = true) := by
  induction p with
  | nil =>
    intro cs anc c anc' hnodup hdesc
    rw [descend] at hdesc
    exact absurd hdesc (by simp)
  | cons i p' ih =>
    intro cs anc c anc' hnodup hdesc
    rw [descend] at hdesc
    cases hget : cs[i]? with
    | none => rw [hget] at hdesc; exact absurd hdesc (by simp)
    | some c0 =>
      rw [hget] at hdesc
      have hc0 : c0 ∈ cs := by
        rcases List.getElem?_eq_some_iff.mp hget with ⟨hlt, heq⟩
        exact heq ▸ List.getElem_mem hlt
      cases p' with
      | nil =>
        have hcc : c = c0 ∧ anc' = anc := by
          injection hdesc with h'
          injection h' with ha hb
          exact ⟨ha.symm, hb.symm⟩
        rw [hcc.1]
        cases hkeep : keepPred c0 anc with
        | true =>
          have hmem := mem_clean_of_keep anc cs i c0 hget hkeep c0.name
            (by rw [cleanItem_namesOf]; exact List.mem_cons_self _ _)
          simp [survivesAt, hget, hkeep, hmem]
        | false =>
          have hnot := not_mem_clean_of_drop anc cs i c0 hnodup hget hkeep c0.name
            (name_mem_namesOf c0)
          simp [survivesAt, hget, hkeep, hnot]
      | cons j q =>
        have hcname : c.name ∈ c0.namesOf := by
          have hmm : c.name ∈ namesOfL c0.children :=
            descend_name_mem (j :: q) c0.children (c0 :: anc) c anc' hdesc
          cases c0 with
          | node n a f cs0 =>
            rw [LItem.namesOf]
            rw [LItem.children] at hmm
            exact List.mem_cons_of_mem n hmm
        cases hkeep : keepPred c0 anc with
        | false =>
          have hnot := not_mem_clean_of_drop anc cs i c0 hnodup hget hkeep c.name hcname
          simp [survivesAt, hget, hkeep, hnot]
        | true =>
          have hnodup0 : (namesOfL c0.children).Nodup := by
            have h1 := nodup_namesOf_of_mem c0 cs hnodup hc0
            cases c0 with
            | node n a f cs0 =>
              rw [LItem.namesOf] at h1
              rw [LItem.children]
              exact (List.nodup_cons.mp h1).2
          have hiff := ih c0.children (c0 :: anc) c anc' hnodup0 hdesc
          have hstep : survivesAt cs anc (i :: j :: q)
              = (keepPred c0 anc && survivesAt c0.children (c0 :: anc) (j :: q)) := by
            rw [survivesAt, hget]
          rw [hstep, hkeep, Bool.true_and, ← hiff]
          constructor
          · intro hmem
            have hloc := mem_clean_localized anc cs i c0 hnodup hget c.name hcname hmem
            rw [cleanItem_namesOf] at hloc
            rcases List.mem_cons.mp hloc with heq | htail
            · exfalso
              have hmm : c.name ∈ namesOfL c0.children :=
                descend_name_mem (j :: q) c0.children (c0 :: anc) c anc' hdesc
              have h1 := nodup_namesOf_of_mem c0 cs hnodup hc0
              cases c0 with
              | node n a f cs0 =>
                rw [LItem.namesOf] at h1
                rw [LItem.children] at hmm
                rw [LItem.name] at heq
                exact (List.nodup_cons.mp h1).1 (heq ▸ hmm)
            · exact htail
          · intro hmem
            refine mem_clean_of_keep anc cs i c0 hget hkeep c.name ?_
            rw [cleanItem_namesOf]
            exact List.mem_cons_of_mem _ hmem

/-- C5 amended, stated on `clean_tree`: after one pruning pass a node of the
combination tree (named uniquely, addressed by its path) is still present if
and only if it **and every one of its `LoadItem` ancestors** satisfies the
code's keep condition — a non-empty **resolved** factor via `get_load_factor`
(explicit or inherited), or at least one direct child with a non-empty
resolved factor; a node failing the condition is removed together with its
entire subtree, including descendants that satisfy it. -/
theorem cleanTree_presence_characterization (t : LoadCombinationSet) (p : List Nat)
    (c : LItem) (anc' : List LItem)
    (hnodup : (namesOfL t.children).Nodup)
    (hdesc : descend t.children [] p = some (c, anc')) :
    (c.name ∈ namesOfL ((t.clean_tree).children)) ↔ survivesAt t.children [] p = true :=
  clean_mem_iff p t.children [] c anc' hnodup hdesc

/-- Witness for the amended C5: in the tree `LRFD1 [Dead(1.0) [DL]]` the leaf
`DL` sits at path `[0, 0]`, every prefix passes the keep condition (Dead has
an explicit factor, DL inherits it), and indeed `DL` survives pruning. -/
theorem cleanTree_presence_characterization_witness :
    "DL" ∈ namesOfL
        ((LoadCombinationSet.clean_tree
          ⟨"LRFD1", false,
            [LItem.node "Dead" (some true) (some 1) [LItem.node "DL" none none []]]⟩).children) := by
  refine (cleanTree_presence_characterization
    ⟨"LRFD1", false,
      [LItem.node "Dead" (some true) (some 1) [LItem.node "DL" none none []]]⟩
    [0, 0] (LItem.node "DL" none none [])
    [LItem.node "Dead" (some true) (some 1) [LItem.node "DL" none none []]]
    (by decide) (by rfl)).mpr (by rfl)
